import Mathlib

/-!
# Resume-Parser upload/export pipeline: a verification development

This file gives a shallow embedding of the core logic of `app.js` of the
Resume-Parser repository — file validation, the upload queue,
the processing simulator, and the JSON/CSV record serializers — and proves
the specified properties about those definitions.

Conventions of the embedding:
* JavaScript arrays become Lean lists; machine numbers for sizes, indices
  and counters become `Nat`; the simulator's fractional progress values and
  `Math.random()` draws become `Rat` (exact, no floating-point rounding).
* An `ExportRecord` (a nested mapping of strings, integers, booleans,
  mappings and sequences) is modelled by `JVal` with objects as ordered
  association lists, so "key insertion order" is the list order; the
  numeric-string key reordering that JavaScript objects perform is outside
  the model, as is floating-point number formatting (numbers are `Int`).
* DOM writes and toast notifications are modelled as returned data
  (`Toast` lists, scheduled-task lists) instead of side effects.
-/

namespace ResumeParser

/-! ## File validation (`processUploadedFiles`, app.js lines 444-469) -/

/-- The metadata of an uploaded file candidate: its `name` and `size` in
bytes (`file.name` / `file.size` on a DOM `File`). -/
structure FileMeta where
  name : String
  size : Nat
deriving DecidableEq

/-- The allow-list of the source: `validTypes = ['.pdf', '.docx', '.txt', '.rtf', '.odt']`. -/
def validTypes : List String := [".pdf", ".docx", ".txt", ".rtf", ".odt"]

/-- JavaScript `split('.')` on a character list: like `String.split`, it
returns one (possibly empty) segment per dot-separated run, `[""]` for the
empty string, and keeps empty leading/trailing segments. -/
def splitDot : List Char → List (List Char)
  | [] => [[]]
  | c :: rest =>
    if c = '.' then [] :: splitDot rest
    else
      match splitDot rest with
      | s :: ss => (c :: s) :: ss
      | [] => [[c]]

/-- The last dot-segment of a file name: `file.name.split('.').pop()`
(`split` never returns an empty array, so `pop` always yields the last
segment). -/
def lastSegment (name : String) : String :=
  String.mk ((splitDot name.toList).getLastD [])

/-- `toLowerCase()` character by character. `Char.toLower` lower-cases the
ASCII range, which is where it matters here: no character outside ASCII
lower-cases onto one of the allowed extensions. -/
def lowerAscii (s : String) : String :=
  String.mk (s.toList.map Char.toLower)

/-- `'.' + file.name.split('.').pop().toLowerCase()` from the source. -/
def fileExt (name : String) : String :=
  "." ++ lowerAscii (lastSegment name)

/-- `validTypes.includes(fileExt)` from the source. -/
def isValidType (f : FileMeta) : Bool :=
  validTypes.contains (fileExt f.name)

/-- `file.size <= 10 * 1024 * 1024` from the source. -/
def isValidSize (f : FileMeta) : Bool :=
  f.size ≤ 10 * 1024 * 1024

/-- The two per-candidate rejection reasons of the source's filter. -/
inductive Reason where
  | invalidType
  | tooLarge
deriving DecidableEq

/-- Outcome of validating one candidate. -/
inductive ValidationResult where
  | accepted
  | rejected (r : Reason)
deriving DecidableEq

/-- One candidate's validation, in the source's order: the type test runs
first, the size test only for an allowed type. -/
def validate (f : FileMeta) : ValidationResult :=
  if isValidType f then
    if isValidSize f then .accepted else .rejected .tooLarge
  else .rejected .invalidType

/-- The filter predicate of the source: a candidate is kept iff both tests pass. -/
def accepts (f : FileMeta) : Bool :=
  isValidType f && isValidSize f

/-! ## Toast notifications (`showToast` observations) -/

/-- One `showToast(title, message, type)` call, recorded as data. -/
structure Toast where
  title : String
  message : String
  severity : String
deriving DecidableEq

/-- The toast the source emits for one rejected candidate (`none` for an
accepted one): `Invalid File Type` when the extension fails, otherwise
`File Too Large` when only the size fails. -/
def rejectionToast (f : FileMeta) : Option Toast :=
  if !isValidType f then
    some ⟨"Invalid File Type", f.name ++ " is not a supported format.", "error"⟩
  else if !isValidSize f then
    some ⟨"File Too Large", f.name ++ " exceeds 10MB limit.", "error"⟩
  else none

/-- The toast text the source uses for each rejection reason, naming the
file: used to state which notification a rejected candidate produces. -/
def toastFor (f : FileMeta) : Reason → Toast
  | .invalidType => ⟨"Invalid File Type", f.name ++ " is not a supported format.", "error"⟩
  | .tooLarge => ⟨"File Too Large", f.name ++ " exceeds 10MB limit.", "error"⟩

/-- One pass of the source's `files.filter(...)` loop: walks the batch in
order, collecting the accepted files and the rejection toasts the filter
callback emits. -/
def filterFiles : List FileMeta → List FileMeta × List Toast
  | [] => ([], [])
  | f :: fs =>
    let r := filterFiles fs
    match rejectionToast f with
    | some t => (r.1, t :: r.2)
    | none => (f :: r.1, r.2)

/-- `processUploadedFiles(files)` on queue `q`: filters the batch, appends
the accepted files to the tail of the queue (`uploadedFiles.push(...validFiles)`),
and emits the rejection toasts followed by one success toast when at least
one file was accepted. Returns the new queue and the emitted toasts. -/
def processUploadedFiles (files q : List FileMeta) : List FileMeta × List Toast :=
  let r := filterFiles files
  if 0 < r.1.length then
    (q ++ r.1,
      r.2 ++ [⟨"Files Added", toString r.1.length ++ " file(s) added to queue.", "success"⟩])
  else (q, r.2)

/-! ## Upload queue mutations (`removeFromQueue`, `clearQueue`) -/

/-- `uploadedFiles.splice(index, 1)`: removal by position; a no-op when the
index is at or past the end, exactly like `splice` with a non-negative
start beyond the length. -/
def removeFromQueue (q : List FileMeta) (index : Nat) : List FileMeta :=
  q.eraseIdx index

/-- A queue mutation of the upload view: a batch append of accepted files
or a positional removal. -/
inductive QueueOp where
  | append (items : List FileMeta)
  | removeAt (index : Nat)

/-- Run a sequence of queue operations left to right. -/
def applyOps (ops : List QueueOp) (q : List FileMeta) : List FileMeta :=
  match ops with
  | [] => q
  | .append items :: rest => applyOps rest (q ++ items)
  | .removeAt i :: rest => applyOps rest (removeFromQueue q i)

/-- All items inserted by a sequence of operations, in insertion order. -/
def insertedAll (ops : List QueueOp) : List FileMeta :=
  match ops with
  | [] => []
  | .append items :: rest => items ++ insertedAll rest
  | .removeAt _ :: rest => insertedAll rest

/-! ## `processAll` (app.js lines 520-539) -/

/-- What one `processAll()` invocation does, as data: the toasts it shows,
the `simulateProcessing` calls it schedules as (delay in ms, file name)
pairs, the deferred navigation (delay, section) if any, and the queue
afterwards (`processAll` never mutates `uploadedFiles`). -/
structure ProcessAllResult where
  toasts : List Toast
  scheduled : List (Nat × String)
  navigation : Option (Nat × String)
  queueAfter : List FileMeta
deriving DecidableEq

/-- `processAll()` on queue `q`: with an empty queue it emits one warning
toast and returns; otherwise it emits an info toast, schedules
`simulateProcessing(file)` at `index * 1000` ms per file, and schedules
`showSection('dashboard')` at 500 ms. -/
def processAll (q : List FileMeta) : ProcessAllResult :=
  if q.length = 0 then
    ⟨[⟨"No Files", "Please add files to the queue first.", "warning"⟩], [], none, q⟩
  else
    ⟨[⟨"Processing Started", "Processing " ++ toString q.length ++ " file(s)...", "info"⟩],
      q.enum.map (fun p => (p.1 * 1000, p.2.name)),
      some (500, "dashboard"), q⟩

/-! ## The processing simulator (`simulateProcessing`, app.js lines 541-590) -/

/-- The simulator's per-item state: current progress and whether the
interval has been cleared (`clearInterval` ran). -/
structure SimState where
  progress : Rat
  done : Bool
deriving DecidableEq

/-- One 200 ms tick of the interval with `Math.random()` draw `d`:
`progress += Math.random() * 15`, then clamp to `100` and clear the
interval once `progress >= 100`. A cleared interval never ticks again, so a
done state is a fixed point. -/
def tick (d : Rat) (s : SimState) : SimState :=
  if s.done then s
  else
    let p := s.progress + d * 15
    if 100 ≤ p then ⟨100, true⟩ else ⟨p, false⟩

/-- The simulator run for one item: state after `n` ticks, where `draws n`
is the `Math.random()` value of tick `n`, starting from `progress = 0`. -/
def simFrom (draws : Nat → Rat) : Nat → SimState
  | 0 => ⟨0, false⟩
  | n + 1 => tick (draws n) (simFrom draws n)

/-- The five stage strings of the source, in order. -/
def steps : List String :=
  ["Extracting text...", "Analyzing structure...", "Extracting entities...",
   "Processing skills...", "Finalizing results..."]

/-- `steps[Math.min(currentStep, steps.length - 1)]` with
`currentStep = Math.floor((progress / 100) * steps.length)`. -/
def stageLabel (p : Rat) : String :=
  steps.getD (min (⌊p / 100 * (steps.length : Rat)⌋.toNat) (steps.length - 1)) ""

/-- `Math.ceil((100 - progress) / 10)`: the displayed ETA in seconds. -/
def etaSeconds (p : Rat) : Int :=
  ⌈(100 - p) / 10⌉

/-! ## Decimal rendering of integers (JavaScript `ToString` on numbers)

The records the source exports hold integral numbers only, so number
formatting is the plain decimal one. The digit recursion runs on an
explicit fuel bound so every definition evaluates by kernel reduction. -/

/-- The character of the decimal digit `n < 10`. -/
def decDigit (n : Nat) : Char :=
  Char.ofNat ('0'.toNat + n)

/-- Most-significant-first decimal digits of `n`, for any `fuel > n`. -/
def natCharsAux : Nat → Nat → List Char
  | 0, _ => []
  | fuel + 1, n =>
    if n < 10 then [decDigit n]
    else natCharsAux fuel (n / 10) ++ [decDigit (n % 10)]

/-- The decimal digit characters of `n`, most significant first. -/
def natChars (n : Nat) : List Char :=
  natCharsAux (n + 1) n

/-- JavaScript `ToString` of an integral number: optional minus sign and
decimal digits. -/
def intChars (i : Int) : List Char :=
  if i < 0 then '-' :: natChars i.natAbs else natChars i.natAbs

/-! ## The `ExportRecord` data model

A nested mapping of strings, numbers, booleans, mappings and sequences.
Objects are ordered member lists — "key insertion order" is the list
order — and a `JVal.num` is an `Int`. -/

mutual
/-- One value of an `ExportRecord`. -/
inductive JVal where
  | str (s : String)
  | num (n : Int)
  | bool (b : Bool)
  | obj (members : JMembers)
  | arr (elems : JElems)
/-- The ordered `"key": value` members of a mapping. -/
inductive JMembers where
  | nil
  | cons (key : String) (v : JVal) (tl : JMembers)
/-- The ordered elements of a sequence. -/
inductive JElems where
  | nil
  | cons (v : JVal) (tl : JElems)
end

/-- An `ExportRecord` itself: what `convertToCSV` and `exportResults`
receive is an object, i.e. its ordered member list. -/
abbrev ExportRecord := JMembers

mutual
/-- JavaScript `String(value)` for the value kinds of an `ExportRecord`:
identity on strings, decimal on numbers, `true`/`false` on booleans,
`[object Object]` on mappings, and `join(',')` on sequences. -/
def jsToString : JVal → String
  | .str s => s
  | .num n => String.mk (intChars n)
  | .bool b => Bool.rec "false" "true" b
  | .obj _ => "[object Object]"
  | .arr es => jsToStringElems es
/-- `Array.prototype.join(',')` over the stringified elements. -/
def jsToStringElems : JElems → String
  | .nil => ""
  | .cons e .nil => jsToString e
  | .cons e es => jsToString e ++ "," ++ jsToStringElems es
end

/-! ## The CSV serializer (`convertToCSV`, app.js lines 1059-1077) -/

/-- `value.join('; ')`: the stringified elements joined with `"; "`. -/
def joinSemi : JElems → String
  | .nil => ""
  | .cons e .nil => jsToString e
  | .cons e es => jsToString e ++ "; " ++ joinSemi es

/-- The cell text of one non-mapping value:
`Array.isArray(value) ? value.join('; ') : String(value)`. -/
def cellString : JVal → String
  | .arr es => joinSemi es
  | v => jsToString v

/-- `cellValue.replace(/"/g, '""')`: double every double quote. -/
def escQuotes (s : String) : String :=
  String.join (s.toList.map (fun c => if c = '"' then "\"\"" else String.singleton c))

/-- One emitted CSV row: the source's template
quotes both cells but escapes only the value cell. -/
def csvRow (fieldName : String) (v : JVal) : String :=
  "\"" ++ fieldName ++ "\",\"" ++ escQuotes (cellString v) ++ "\""

/-- The joined path of a nested key: the source's
conditional `prefix ? prefix + '.' + key : key` (the root path is the
empty string, which is falsy). -/
def fieldPath (pre key : String) : String :=
  if pre = "" then key else pre ++ "." ++ key

/-- The `addRows` walk of `convertToCSV`: depth-first over `Object.entries`
in member order, recursing into non-array mappings and emitting one row
for every other value. -/
def addRows : JMembers → String → List String
  | .nil, _ => []
  | .cons key (.obj ms') ms, pre => addRows ms' (fieldPath pre key) ++ addRows ms pre
  | .cons key v ms, pre => csvRow (fieldPath pre key) v :: addRows ms pre

/-- `convertToCSV(data)`: the header row then the flattened rows,
joined with `'\n'`. -/
def convertToCSV (data : ExportRecord) : String :=
  String.intercalate "\n" ("Field,Value" :: addRows data "")

/-- The flattening of an `ExportRecord` into `(path, value)` pairs —
the declarative description the spec gives of the walk, used to state
what `convertToCSV` computes. -/
def flattenFields : JMembers → String → List (String × JVal)
  | .nil, _ => []
  | .cons key (.obj ms') ms, pre => flattenFields ms' (fieldPath pre key) ++ flattenFields ms pre
  | .cons key v ms, pre => (fieldPath pre key, v) :: flattenFields ms pre

/-- The CSV text the claim describes, word for word: as `convertToCSV`,
except that the path cell is quote-escaped exactly like the value cell.
Used only to compare the claim against the source's behaviour. -/
def csvPerClaim (data : ExportRecord) : String :=
  String.intercalate "\n"
    ("Field,Value" ::
      (flattenFields data "").map
        (fun pv => "\"" ++ escQuotes pv.1 ++ "\",\"" ++ escQuotes (cellString pv.2) ++ "\""))

/-! ## The JSON serializer (`JSON.stringify(data, null, 2)` in `exportResults`)

`exportResults('json')` serializes the record with
`JSON.stringify(data, null, 2)`. The functions below model that call per
the ECMAScript `SerializeJSON*` algorithms with a two-space gap: member
lists and element lists print one entry per line, indented two spaces per
nesting level, keys in member order, `": "` after each key, and strings
quoted with `"`/`\`/control-character escaping (`\b \t \n \f \r`
shorthands, `\u00xx` for the other control characters). They work on
`List Char`; `jsonStringify` wraps the result as a `String`. -/

/-- The lowercase hex digit of `n < 16`. -/
def hexDigitChar (n : Nat) : Char :=
  if n < 10 then Char.ofNat ('0'.toNat + n) else Char.ofNat ('a'.toNat + n - 10)

/-- `QuoteJSONString` escaping of a single character. -/
def escapeChar (c : Char) : List Char :=
  if c = '"' then ['\\', '"']
  else if c = '\\' then ['\\', '\\']
  else if c = '\x08' then ['\\', 'b']
  else if c = '\t' then ['\\', 't']
  else if c = '\n' then ['\\', 'n']
  else if c = '\x0c' then ['\\', 'f']
  else if c = '\x0d' then ['\\', 'r']
  else if c.toNat < 32 then
    ['\\', 'u', '0', '0', hexDigitChar (c.toNat / 16), hexDigitChar (c.toNat % 16)]
  else [c]

/-- Escape every character of a string body. -/
def escapeList : List Char → List Char
  | [] => []
  | c :: cs => escapeChar c ++ escapeList cs

/-- A JSON string literal: quote, escaped body, quote. -/
def quoteJSON (s : String) : List Char :=
  '"' :: (escapeList s.toList ++ ['"'])

/-- The two-space indentation of nesting level `d`. -/
def indentChars (d : Nat) : List Char :=
  List.replicate (2 * d) ' '

mutual
/-- Serialize one value at nesting level `d` (the level of the line the
value starts on; its children indent one level deeper). -/
def emitVal (d : Nat) : JVal → List Char
  | .str s => quoteJSON s
  | .num n => intChars n
  | .bool true => "true".toList
  | .bool false => "false".toList
  | .obj .nil => ['\x7b', '\x7d']
  | .obj (.cons k v ms) =>
    '\x7b' :: '\n' ::
      (emitMembers (d + 1) (.cons k v ms) ++ '\n' :: (indentChars d ++ ['\x7d']))
  | .arr .nil => ['[', ']']
  | .arr (.cons e es) =>
    '[' :: '\n' :: (emitElems (d + 1) (.cons e es) ++ '\n' :: (indentChars d ++ [']']))
/-- Serialize a nonempty member list: each member on its own indented
line, `": "` after the key, members separated by `",\n"`. -/
def emitMembers (d : Nat) : JMembers → List Char
  | .nil => []
  | .cons k v .nil => indentChars d ++ (quoteJSON k ++ ':' :: ' ' :: emitVal d v)
  | .cons k v ms =>
    indentChars d ++
      (quoteJSON k ++ ':' :: ' ' :: (emitVal d v ++ ',' :: '\n' :: emitMembers d ms))
/-- Serialize a nonempty element list, one element per indented line. -/
def emitElems (d : Nat) : JElems → List Char
  | .nil => []
  | .cons e .nil => indentChars d ++ emitVal d e
  | .cons e es => indentChars d ++ (emitVal d e ++ ',' :: '\n' :: emitElems d es)
end

/-- `JSON.stringify(data, null, 2)` on an `ExportRecord`. -/
def jsonStringify (data : ExportRecord) : String :=
  String.mk (emitVal 0 (.obj data))

/-! ## The JSON parser (model of `JSON.parse`)

A recursive-descent parser over `List Char`, total via a fuel counter,
skipping the JSON whitespace characters between tokens. It accepts the
grammar the serializer above produces (numbers are restricted to the
integer grammar, matching the `Int`-valued model; the escape table is the
full JSON one). Nothing in the repository is the parser — `JSON.parse`
is the platform's — so this is the standard algorithm, used to state the
round-trip property. -/

/-- The JSON whitespace characters. -/
def isWsChar (c : Char) : Bool :=
  c = ' ' || c = '\n' || c = '\t' || c = '\x0d'

/-- Drop leading whitespace. -/
def skipWs : List Char → List Char
  | [] => []
  | c :: cs => if isWsChar c then skipWs cs else c :: cs

/-- The numeric value of a hex digit, if `c` is one. -/
def hexVal (c : Char) : Option Nat :=
  if '0' ≤ c ∧ c ≤ '9' then some (c.toNat - '0'.toNat)
  else if 'a' ≤ c ∧ c ≤ 'f' then some (c.toNat - 'a'.toNat + 10)
  else if 'A' ≤ c ∧ c ≤ 'F' then some (c.toNat - 'A'.toNat + 10)
  else none

/-- The single-character escapes of a JSON string. -/
def unescapeChar : Char → Option Char
  | '"' => some '"'
  | '\\' => some '\\'
  | '/' => some '/'
  | 'b' => some '\x08'
  | 't' => some '\t'
  | 'n' => some '\n'
  | 'f' => some '\x0c'
  | 'r' => some '\x0d'
  | _ => none

/-- Parse a string body after the opening quote, accumulating in reverse. -/
def parseStrBody (acc : List Char) : List Char → Option (String × List Char)
  | '"' :: rest => some (String.mk acc.reverse, rest)
  | '\\' :: 'u' :: a :: b :: c :: d :: rest =>
    (match hexVal a, hexVal b, hexVal c, hexVal d with
     | some va, some vb, some vc, some vd =>
       parseStrBody (Char.ofNat (((va * 16 + vb) * 16 + vc) * 16 + vd) :: acc) rest
     | _, _, _, _ => none)
  | '\\' :: e :: rest =>
    (match unescapeChar e with
     | some ch => parseStrBody (ch :: acc) rest
     | none => none)
  | c :: rest => if c.toNat < 32 then none else parseStrBody (c :: acc) rest
  | [] => none

/-- Split off the longest leading run of decimal digits. -/
def spanDigits : List Char → List Char × List Char
  | [] => ([], [])
  | c :: cs =>
    if c.isDigit then
      let r := spanDigits cs
      (c :: r.1, r.2)
    else ([], c :: cs)

/-- The value of a digit run, most significant first. -/
def digitsVal (ds : List Char) : Nat :=
  ds.foldl (fun acc c => acc * 10 + (c.toNat - '0'.toNat)) 0

/-- Parse an integer: optional minus sign, then at least one digit. -/
def parseIntChars (cs : List Char) : Option (Int × List Char) :=
  match cs with
  | '-' :: rest =>
    let r := spanDigits rest
    if r.1.isEmpty then none else some (-(digitsVal r.1 : Int), r.2)
  | _ =>
    let r := spanDigits cs
    if r.1.isEmpty then none else some ((digitsVal r.1 : Int), r.2)

mutual
/-- Parse one JSON value after skipping whitespace. -/
def parseVal : Nat → List Char → Option (JVal × List Char)
  | 0, _ => none
  | fuel + 1, cs =>
    match skipWs cs with
    | 't' :: 'r' :: 'u' :: 'e' :: r => some (.bool true, r)
    | 'f' :: 'a' :: 'l' :: 's' :: 'e' :: r => some (.bool false, r)
    | '"' :: r =>
      (match parseStrBody [] r with
       | some (s, r') => some (.str s, r')
       | none => none)
    | '\x7b' :: r =>
      (match skipWs r with
       | '\x7d' :: r' => some (.obj .nil, r')
       | _ => match parseMembers fuel r with
              | some (ms, r') => some (.obj ms, r')
              | none => none)
    | '[' :: r =>
      (match skipWs r with
       | ']' :: r' => some (.arr .nil, r')
       | _ => match parseElems fuel r with
              | some (es, r') => some (.arr es, r')
              | none => none)
    | c :: r =>
      if c = '-' || c.isDigit then
        (match parseIntChars (c :: r) with
         | some (n, r') => some (.num n, r')
         | none => none)
      else none
    | [] => none
/-- Parse one or more `"key": value` members and the closing brace. -/
def parseMembers : Nat → List Char → Option (JMembers × List Char)
  | 0, _ => none
  | fuel + 1, cs =>
    match skipWs cs with
    | '"' :: r =>
      (match parseStrBody [] r with
       | some (key, r1) =>
         (match skipWs r1 with
          | ':' :: r2 =>
            (match parseVal fuel r2 with
             | some (v, r3) =>
               (match skipWs r3 with
                | ',' :: r4 =>
                  (match parseMembers fuel r4 with
                   | some (ms, r5) => some (.cons key v ms, r5)
                   | none => none)
                | '\x7d' :: r4 => some (.cons key v .nil, r4)
                | _ => none)
             | none => none)
          | _ => none)
       | none => none)
    | _ => none
/-- Parse one or more elements and the closing bracket. -/
def parseElems : Nat → List Char → Option (JElems × List Char)
  | 0, _ => none
  | fuel + 1, cs =>
    match parseVal fuel cs with
    | some (v, r) =>
      (match skipWs r with
       | ',' :: r' =>
         (match parseElems fuel r' with
          | some (es, r'') => some (.cons v es, r'')
          | none => none)
       | ']' :: r' => some (.cons v .nil, r')
       | _ => none)
    | none => none
end

/-- Parse a complete document: one value, then only whitespace. -/
def jsonParse (s : String) : Option JVal :=
  match parseVal (s.length + 1) s.toList with
  | some (v, rest) => if skipWs rest = [] then some v else none
  | none => none

/-- A remainder that cannot extend a rendered number: empty or headed by a
non-digit. Every continuation the serializer emits after a value — a
comma, a newline, a closing brace or bracket, or the end of the document —
qualifies. -/
def numDelim : List Char → Bool
  | [] => true
  | c :: _ => !c.isDigit

/-- A character fit to begin a rendered value: not whitespace and not a
closing token. Used to show the parser never mistakes a value's first
character for the end of a container. -/
def goodHead (c : Char) : Bool :=
  !isWsChar c && c != ']' && c != '\x7d'

/-! # Theorems -/

/-! ## Validation (C1) -/

/-- Prepending the dot is injective, so comparing `'.' + ext` against the
dotted allow-list is comparing `ext` against the undotted one. -/
theorem dot_append_inj (x y : String) : ("." ++ x = "." ++ y) ↔ x = y := by
  simp [String.ext_iff, String.data_append]

/-- Membership of `'.' + x` in the source's dotted allow-list is
membership of `x` in the extension set the spec names. -/
theorem mem_validTypes_iff (x : String) :
    validTypes.contains ("." ++ x) = true ↔
      x ∈ (["pdf", "docx", "txt", "rtf", "odt"] : List String) := by
  have h1 : (".pdf" : String) = "." ++ "pdf" := by decide
  have h2 : (".docx" : String) = "." ++ "docx" := by decide
  have h3 : (".txt" : String) = "." ++ "txt" := by decide
  have h4 : (".rtf" : String) = "." ++ "rtf" := by decide
  have h5 : (".odt" : String) = "." ++ "odt" := by decide
  rw [List.elem_iff]
  simp only [validTypes, h1, h2, h3, h4, h5, List.mem_cons, List.not_mem_nil, or_false,
    dot_append_inj]

/-- C1: validation accepts exactly the allowed lower-cased extensions of at
most `10*1024*1024 = 10485760` bytes, and a rejected candidate carries
exactly one reason — `invalidType` iff the extension fails, `tooLarge` iff
only the size does. -/
theorem validate_rule (f : FileMeta) :
    (validate f = .accepted ↔
      (lowerAscii (lastSegment f.name) ∈ (["pdf", "docx", "txt", "rtf", "odt"] : List String) ∧
        f.size ≤ 10485760)) ∧
    (validate f = .rejected .invalidType ↔
      lowerAscii (lastSegment f.name) ∉ (["pdf", "docx", "txt", "rtf", "odt"] : List String)) ∧
    (validate f = .rejected .tooLarge ↔
      (lowerAscii (lastSegment f.name) ∈ (["pdf", "docx", "txt", "rtf", "odt"] : List String) ∧
        10485760 < f.size)) := by
  have htype : isValidType f = true ↔
      lowerAscii (lastSegment f.name) ∈ (["pdf", "docx", "txt", "rtf", "odt"] : List String) := by
    rw [isValidType, fileExt, mem_validTypes_iff]
  have hsize : isValidSize f = true ↔ f.size ≤ 10485760 := by
    rw [isValidSize]
    norm_num
  by_cases ht : isValidType f = true <;> by_cases hs : isValidSize f = true <;>
    simp_all [validate, ht, hs]

/-! ## Queue order under append and positional removal (C5, C6) -/

/-- Running any operation sequence from any start keeps the queue an
order-preserving selection of the start plus everything inserted. -/
theorem applyOps_sublist (ops : List QueueOp) :
    ∀ q : List FileMeta, (applyOps ops q).Sublist (q ++ insertedAll ops) := by
  induction ops with
  | nil =>
    intro q
    simp [applyOps, insertedAll]
  | cons op rest ih =>
    intro q
    cases op with
    | append items =>
      have h := ih (q ++ items)
      simpa [applyOps, insertedAll, List.append_assoc] using h
    | removeAt i =>
      refine (ih (removeFromQueue q i)).trans ?_
      simp only [insertedAll]
      exact (List.eraseIdx_sublist q i).append_right _

/-- C5: after any sequence of appends and removals starting from the empty
queue, the visible queue is the insertion sequence restricted to the
still-present items, in insertion order (a sublist of all items ever
appended, in order). -/
theorem queue_preserves_insertion_order (ops : List QueueOp) :
    (applyOps ops []).Sublist (insertedAll ops) := by
  simpa using applyOps_sublist ops []

/-- C6 counterexample: removal is positional, not by identity. Removing
index 0 twice from a two-item queue empties it — the second call removes
the survivor instead of being a no-op, which an identity-keyed removal of
the same id twice would never do. -/
theorem removeFromQueue_not_identity_based :
    removeFromQueue (removeFromQueue [⟨"a.pdf", 1000⟩, ⟨"b.pdf", 2000⟩] 0) 0 = [] ∧
    removeFromQueue (removeFromQueue [⟨"a.pdf", 1000⟩, ⟨"b.pdf", 2000⟩] 0) 0 ≠
      [⟨"b.pdf", 2000⟩] := by
  decide

/-- C6 amended: `removeFromQueue` removes by position. It deletes exactly
the item at the given index (`take i ++ drop (i+1)`), is a no-op — not an
error — when the index is at or past the end, and never reorders the
surviving items. -/
theorem removeFromQueue_positional_spec (q : List FileMeta) (i : Nat) :
    removeFromQueue q i = q.take i ++ q.drop (i + 1) ∧
    (q.length ≤ i → removeFromQueue q i = q) ∧
    (i < q.length → (removeFromQueue q i).length = q.length - 1) ∧
    (removeFromQueue q i).Sublist q := by
  refine ⟨List.eraseIdx_eq_take_drop_succ q i, fun h => List.eraseIdx_of_length_le h,
    fun h => ?_, List.eraseIdx_sublist q i⟩
  rw [removeFromQueue, List.length_eraseIdx, if_pos h]

/-- Witness for the positional-removal theorem at concrete queues. -/
theorem removeFromQueue_positional_spec_witness :
    removeFromQueue [⟨"a.pdf", 1⟩, ⟨"b.pdf", 2⟩, ⟨"c.pdf", 3⟩] 1 =
      [⟨"a.pdf", 1⟩, ⟨"c.pdf", 3⟩] ∧
    removeFromQueue [⟨"a.pdf", 1⟩, ⟨"b.pdf", 2⟩] 5 = [⟨"a.pdf", 1⟩, ⟨"b.pdf", 2⟩] := by
  constructor
  · exact (removeFromQueue_positional_spec [⟨"a.pdf", 1⟩, ⟨"b.pdf", 2⟩, ⟨"c.pdf", 3⟩] 1).1.trans
      (by decide)
  · exact (removeFromQueue_positional_spec [⟨"a.pdf", 1⟩, ⟨"b.pdf", 2⟩] 5).2.1 (by decide)

/-! ## `processAll` on an empty queue (C10) -/

/-- C10: invoked on an empty queue, `processAll` emits exactly one warning
toast, schedules no processing and no navigation, and leaves the queue
unchanged. -/
theorem processAll_empty_queue :
    processAll [] =
      ⟨[⟨"No Files", "Please add files to the queue first.", "warning"⟩], [], none, []⟩ := by
  rfl

/-! ## Stage labels (C7) -/

/-- C7: the stage label is the stage list entry at
`floor(progress/100 * 5)` clamped to the last index; in the first fifth of
the progress range it is the first stage, from 80% on it is the last, and
the endpoints 0 and 100 map to the first and last stage strings. -/
theorem stageLabel_bands (p : Rat) (h0 : 0 ≤ p) (h1 : p ≤ 100) :
    stageLabel p = steps.getD (min (⌊p / 100 * 5⌋.toNat) 4) "" ∧
    (p < 20 → stageLabel p = "Extracting text...") ∧
    (80 ≤ p → stageLabel p = "Finalizing results...") ∧
    stageLabel 0 = "Extracting text..." ∧
    stageLabel 100 = "Finalizing results..." := by
  have hsteps : ((steps.length : Rat) = 5) ∧ steps.length - 1 = 4 := by
    constructor <;> simp [steps]
  have hform : ∀ r : Rat, stageLabel r = steps.getD (min (⌊r / 100 * 5⌋.toNat) 4) "" := by
    intro r
    rw [stageLabel, hsteps.1, hsteps.2]
  refine ⟨hform p, ?_, ?_, ?_, ?_⟩
  · intro h20
    have hfl : ⌊p / 100 * 5⌋ = 0 := by
      rw [Int.floor_eq_zero_iff]
      constructor
      · positivity
      · rw [div_mul_eq_mul_div, div_lt_one (by norm_num)]
        linarith
    rw [hform p, hfl]
    decide
  · intro h80
    have hfl : (4 : Int) ≤ ⌊p / 100 * 5⌋ := by
      rw [Int.le_floor]
      rw [div_mul_eq_mul_div, le_div_iff₀ (by norm_num)]
      push_cast
      linarith
    have h4 : min (⌊p / 100 * 5⌋.toNat) 4 = 4 := by
      have := (Int.le_toNat (by omega)).mpr hfl
      omega
    rw [hform p, h4]
    decide
  · have : ((0 : Rat) / 100 * 5) = 0 := by norm_num
    rw [hform 0, this]
    decide
  · have : ((100 : Rat) / 100 * 5) = 5 := by norm_num
    rw [hform 100, this]
    decide

/-- C7 counterexample: the source's stage strings carry a trailing
ellipsis — at progress 0 the label is `Extracting text...`, not the bare
`Extracting text` the claim names, and likewise at progress 100. -/
theorem stageLabel_ellipsis :
    stageLabel 0 = "Extracting text..." ∧ stageLabel 0 ≠ "Extracting text" ∧
    stageLabel 100 = "Finalizing results..." ∧
    stageLabel 100 ≠ "Finalizing results" := by
  have hsteps : ((steps.length : Rat) = 5) ∧ steps.length - 1 = 4 := by
    constructor <;> simp [steps]
  have h0 : stageLabel 0 = "Extracting text..." := by
    rw [stageLabel, hsteps.1, hsteps.2, show ((0 : Rat) / 100 * 5) = 0 by norm_num]
    decide
  have h100 : stageLabel 100 = "Finalizing results..." := by
    rw [stageLabel, hsteps.1, hsteps.2, show ((100 : Rat) / 100 * 5) = 5 by norm_num]
    decide
  refine ⟨h0, ?_, h100, ?_⟩
  · rw [h0]
    decide
  · rw [h100]
    decide

/-- Witness: the stage band theorem at progress 90. -/
theorem stageLabel_bands_witness :
    stageLabel 90 = "Finalizing results..." :=
  (stageLabel_bands 90 (by norm_num) (by norm_num)).2.2.1 (by norm_num)

/-! ## ETA derivation (C8) -/

/-- C8: the displayed ETA is `ceil((100 - progress) / 10)`; it never
increases across a strict progress increase and never goes negative while
progress is within range. -/
theorem etaSeconds_monotone (p q : Rat) (hpq : p < q) (h0 : 0 ≤ p) (h1 : q ≤ 100) :
    etaSeconds p = ⌈(100 - p) / 10⌉ ∧
    etaSeconds q ≤ etaSeconds p ∧
    0 ≤ etaSeconds q := by
  refine ⟨rfl, ?_, ?_⟩
  · apply Int.ceil_le_ceil
    apply (div_le_div_iff_of_pos_right (by norm_num)).mpr
    linarith
  · apply Int.ceil_nonneg
    apply div_nonneg (by linarith) (by norm_num)

/-- Witness: the ETA theorem at progress 0 and 50. -/
theorem etaSeconds_monotone_witness :
    etaSeconds 0 = ⌈((100 : Rat) - 0) / 10⌉ ∧
    etaSeconds 50 ≤ etaSeconds 0 ∧
    0 ≤ etaSeconds 50 :=
  etaSeconds_monotone 0 50 (by norm_num) (by norm_num) (by norm_num)

/-! ## Per-item batch validation (C9) -/

/-- A candidate produces no rejection toast exactly when it is accepted. -/
theorem rejectionToast_none_iff (f : FileMeta) :
    rejectionToast f = none ↔ accepts f = true := by
  by_cases ht : isValidType f = true <;> by_cases hs : isValidSize f = true <;>
    simp [rejectionToast, accepts, ht, hs]

/-- A rejected candidate's toast names the file and its reason. -/
theorem rejectionToast_names_reason (f : FileMeta) (r : Reason) :
    validate f = .rejected r → rejectionToast f = some (toastFor f r) := by
  by_cases ht : isValidType f = true <;> by_cases hs : isValidSize f = true <;>
    intro h <;> simp_all [validate, rejectionToast, toastFor] <;>
    simp [← h, toastFor]

/-- Every toast the filter emits has severity `error`. -/
theorem rejectionToast_severity (f : FileMeta) (t : Toast) :
    rejectionToast f = some t → t.severity = "error" := by
  by_cases ht : isValidType f = true <;> by_cases hs : isValidSize f = true <;>
    intro h <;> simp_all [rejectionToast] <;> simp [← h]

/-- The filter pass keeps exactly the accepted files, in order. -/
theorem filterFiles_fst (files : List FileMeta) :
    (filterFiles files).1 = files.filter accepts := by
  induction files with
  | nil => rfl
  | cons f fs ih =>
    cases h : rejectionToast f with
    | none =>
      have ha : accepts f = true := (rejectionToast_none_iff f).mp h
      simp [filterFiles, h, List.filter_cons, ha, ih]
    | some t =>
      have ha : accepts f = false := by
        by_cases hacc : accepts f = true
        · rw [(rejectionToast_none_iff f).mpr hacc] at h
          exact absurd h (by simp)
        · simpa using hacc
      simp [filterFiles, h, List.filter_cons, ha, ih]

/-- The filter pass emits exactly one error toast per rejected file, in
batch order, and nothing else. -/
theorem filterFiles_snd (files : List FileMeta) :
    (filterFiles files).2 = files.filterMap rejectionToast := by
  induction files with
  | nil => rfl
  | cons f fs ih =>
    cases h : rejectionToast f with
    | none => simp [filterFiles, h, List.filterMap_cons, ih]
    | some t => simp [filterFiles, h, List.filterMap_cons, ih]

/-- Error toasts pass the error filter untouched. -/
theorem filterMap_rejection_error_filter (files : List FileMeta) :
    (files.filterMap rejectionToast).filter (fun t => t.severity = "error") =
      files.filterMap rejectionToast := by
  induction files with
  | nil => rfl
  | cons f fs ih =>
    cases h : rejectionToast f with
    | none => simp [List.filterMap_cons, h, ih]
    | some t =>
      have := rejectionToast_severity f t h
      simp [List.filterMap_cons, h, List.filter_cons, this, ih]

/-- C9: batch ingestion validates each candidate independently. The queue
gains exactly the accepted files at its tail in batch order (no rejected
candidate is queued), the emitted error toasts are exactly one per
rejected candidate in batch order, and each such toast names the file and
its reason. A rejection never stops the rest of the batch: the remaining
files still contribute their queue entries and toasts. -/
theorem batch_validation_independent (files q : List FileMeta) :
    (processUploadedFiles files q).1 = q ++ files.filter accepts ∧
    (processUploadedFiles files q).2.filter (fun t => t.severity = "error") =
      files.filterMap rejectionToast ∧
    (∀ f r, validate f = .rejected r → rejectionToast f = some (toastFor f r)) ∧
    (∀ f, rejectionToast f = none ↔ accepts f = true) := by
  refine ⟨?_, ?_, rejectionToast_names_reason, rejectionToast_none_iff⟩
  · rw [processUploadedFiles]
    by_cases hlen : 0 < (filterFiles files).1.length
    · rw [if_pos hlen, filterFiles_fst]
    · have : files.filter accepts = [] := by
        rw [← filterFiles_fst]
        exact List.eq_nil_of_length_eq_zero (by omega)
      simp only [if_neg hlen, this, List.append_nil]
  · rw [processUploadedFiles]
    by_cases hlen : 0 < (filterFiles files).1.length
    · simp only [if_pos hlen]
      rw [List.filter_append, filterFiles_snd, filterMap_rejection_error_filter]
      simp
    · simp only [if_neg hlen]
      rw [filterFiles_snd, filterMap_rejection_error_filter]

/-- Witness: validating a good pdf and a bad exe in one batch. -/
theorem batch_validation_independent_witness :
    (processUploadedFiles [⟨"r1.pdf", 2000000⟩, ⟨"r2.exe", 500⟩] []).1 =
      [⟨"r1.pdf", 2000000⟩] ∧
    (processUploadedFiles [⟨"r1.pdf", 2000000⟩, ⟨"r2.exe", 500⟩] []).2.filter
        (fun t => t.severity = "error") =
      [⟨"Invalid File Type", "r2.exe is not a supported format.", "error"⟩] ∧
    rejectionToast ⟨"r2.exe", 500⟩ =
      some ⟨"Invalid File Type", "r2.exe is not a supported format.", "error"⟩ := by
  have h := batch_validation_independent [⟨"r1.pdf", 2000000⟩, ⟨"r2.exe", 500⟩] []
  refine ⟨h.1.trans (by decide), h.2.1.trans (by decide), ?_⟩
  exact h.2.2.1 ⟨"r2.exe", 500⟩ .invalidType (by decide)

/-! ## The progress simulator (C4) -/

/-- Progress never exceeds 100; a cleared interval means exactly 100, a
live one strictly less. -/
theorem sim_progress_range (draws : Nat → Rat) (n : Nat) :
    (simFrom draws n).progress ≤ 100 ∧
    ((simFrom draws n).done = true → (simFrom draws n).progress = 100) ∧
    ((simFrom draws n).done = false → (simFrom draws n).progress < 100) := by
  induction n with
  | zero =>
    refine ⟨by norm_num [simFrom], by simp [simFrom], by norm_num [simFrom]⟩
  | succ n ih =>
    by_cases hd : (simFrom draws n).done = true
    · simpa [simFrom, tick, hd] using ih
    · by_cases hc : 100 ≤ (simFrom draws n).progress + draws n * 15
      · simp [simFrom, tick, hd, hc]
      · have := lt_of_not_le hc
        simp only [simFrom, tick, if_neg hd, if_neg hc]
        refine ⟨by linarith, by simp, fun _ => by linarith⟩

/-- Once the interval is cleared, no later tick changes the state. -/
theorem sim_done_stable (draws : Nat → Rat) (n m : Nat) :
    (simFrom draws n).done = true → simFrom draws (n + m) = simFrom draws n := by
  induction m with
  | zero => intro _; rfl
  | succ m ih =>
    intro h
    have hm := ih h
    have : n + (m + 1) = (n + m) + 1 := by omega
    rw [this, simFrom, hm, tick, if_pos (by rw [h])]

/-- Lower bound while live: with every draw at least `ε`, a still-running
item has made at least `15 ε` progress per tick. -/
theorem sim_lower_bound (draws : Nat → Rat) (ε : Rat) (hd : ∀ i, ε ≤ draws i) :
    ∀ n, (simFrom draws n).done = false → 15 * ε * n ≤ (simFrom draws n).progress := by
  intro n
  induction n with
  | zero => intro _; norm_num [simFrom]
  | succ n ih =>
    intro h
    have hdn : (simFrom draws n).done = false := by
      by_cases hdn : (simFrom draws n).done = true
      · have := sim_done_stable draws n 1 hdn
        rw [this] at h
        rw [h] at hdn
        exact absurd hdn (by simp)
      · simpa using hdn
    have hle := ih hdn
    by_cases hc : 100 ≤ (simFrom draws n).progress + draws n * 15
    · exfalso
      have : simFrom draws (n + 1) = ⟨100, true⟩ := by
        rw [simFrom, tick, if_neg (by rw [hdn]; simp), if_pos hc]
      rw [this] at h
      simp at h
    · have hstep : simFrom draws (n + 1) =
          ⟨(simFrom draws n).progress + draws n * 15, false⟩ := by
        rw [simFrom, tick, if_neg (by rw [hdn]; simp), if_neg hc]
      rw [hstep]
      have hdr := hd n
      push_cast
      nlinarith [hle, hdr]

/-- C4 amended: per-tick increments lie in `[0, 15)` — `Math.random()`
returns values in `[0, 1)`, so a zero increment is possible and 15 is
excluded — progress is non-decreasing, a finished item stays finished at
exactly 100 forever, and whenever the draws are bounded below by any
positive `ε` the run reaches exactly 100 after finitely many ticks. -/
theorem simulator_progress_spec (draws : Nat → Rat)
    (h0 : ∀ n, 0 ≤ draws n) (h1 : ∀ n, draws n < 1) :
    (∀ n, (simFrom draws n).progress ≤ (simFrom draws (n + 1)).progress) ∧
    (∀ n, 0 ≤ (simFrom draws (n + 1)).progress - (simFrom draws n).progress ∧
      (simFrom draws (n + 1)).progress - (simFrom draws n).progress < 15) ∧
    (∀ n m, (simFrom draws n).done = true → simFrom draws (n + m) = simFrom draws n) ∧
    (∀ n, (simFrom draws n).done = true → (simFrom draws n).progress = 100) ∧
    (∀ ε : Rat, 0 < ε → (∀ i, ε ≤ draws i) →
      ∃ N, (simFrom draws N).done = true ∧ (simFrom draws N).progress = 100) := by
  have hstep : ∀ n, 0 ≤ (simFrom draws (n + 1)).progress - (simFrom draws n).progress ∧
      (simFrom draws (n + 1)).progress - (simFrom draws n).progress < 15 := by
    intro n
    obtain ⟨hle, _, hlt⟩ := sim_progress_range draws n
    by_cases hd : (simFrom draws n).done = true
    · rw [sim_done_stable draws n 1 hd]
      norm_num
    · have hdn : (simFrom draws n).done = false := by simpa using hd
      by_cases hc : 100 ≤ (simFrom draws n).progress + draws n * 15
      · have : simFrom draws (n + 1) = ⟨100, true⟩ := by
          rw [simFrom, tick, if_neg (by rw [hdn]; simp), if_pos hc]
        rw [this]
        have := h1 n
        constructor <;> simp <;> linarith
      · have : simFrom draws (n + 1) =
            ⟨(simFrom draws n).progress + draws n * 15, false⟩ := by
          rw [simFrom, tick, if_neg (by rw [hdn]; simp), if_neg hc]
        rw [this]
        have ha := h0 n
        have hb := h1 n
        constructor <;> simp <;> nlinarith
  refine ⟨fun n => by have := (hstep n).1; linarith, hstep,
    fun n m => sim_done_stable draws n m,
    fun n => (sim_progress_range draws n).2.1, ?_⟩
  intro ε hε hd
  obtain ⟨N, hN⟩ := exists_nat_gt (100 / (15 * ε))
  have h100 : 100 < 15 * ε * N := by
    rw [div_lt_iff₀ (by positivity)] at hN
    linarith [hN]
  by_cases hdone : (simFrom draws N).done = true
  · exact ⟨N, hdone, (sim_progress_range draws N).2.1 hdone⟩
  · exfalso
    have hdn : (simFrom draws N).done = false := by simpa using hdone
    have := sim_lower_bound draws ε hd N hdn
    have := (sim_progress_range draws N).2.2 hdn
    linarith

/-- Witness: the simulator theorem at the constant draw 1/2. -/
theorem simulator_progress_spec_witness :
    (∀ n, (simFrom (fun _ : Nat => (1 : Rat) / 2) n).progress ≤
      (simFrom (fun _ : Nat => (1 : Rat) / 2) (n + 1)).progress) ∧
    (∀ n, 0 ≤ (simFrom (fun _ : Nat => (1 : Rat) / 2) (n + 1)).progress -
        (simFrom (fun _ : Nat => (1 : Rat) / 2) n).progress ∧
      (simFrom (fun _ : Nat => (1 : Rat) / 2) (n + 1)).progress -
        (simFrom (fun _ : Nat => (1 : Rat) / 2) n).progress < 15) ∧
    (∀ n m, (simFrom (fun _ : Nat => (1 : Rat) / 2) n).done = true →
      simFrom (fun _ : Nat => (1 : Rat) / 2) (n + m) = simFrom (fun _ : Nat => (1 : Rat) / 2) n) ∧
    (∀ n, (simFrom (fun _ : Nat => (1 : Rat) / 2) n).done = true →
      (simFrom (fun _ : Nat => (1 : Rat) / 2) n).progress = 100) ∧
    (∀ ε : Rat, 0 < ε → (∀ i, ε ≤ (fun _ : Nat => (1 : Rat) / 2) i) →
      ∃ N, (simFrom (fun _ : Nat => (1 : Rat) / 2) N).done = true ∧
        (simFrom (fun _ : Nat => (1 : Rat) / 2) N).progress = 100) :=
  simulator_progress_spec (fun _ : Nat => (1 : Rat) / 2)
    (fun _ => by norm_num) (fun _ => by norm_num)

/-- C4 counterexample: the draw sequence that is constantly 0 is allowed
by `Math.random()`'s contract, gives a zero first increment — so the
increment is not always strictly positive — and never completes: no tick
count ever reaches progress 100. -/
theorem simulator_zero_draws_stall :
    (simFrom (fun _ => 0) 1).progress - (simFrom (fun _ => 0) 0).progress = 0 ∧
    ¬ ∃ n, (simFrom (fun _ => 0) n).progress = 100 := by
  have hconst : ∀ n, simFrom (fun _ => 0) n = ⟨0, false⟩ := by
    intro n
    induction n with
    | zero => rfl
    | succ n ih =>
      rw [simFrom, ih, tick]
      norm_num
  constructor
  · rw [hconst 1, hconst 0]
    norm_num
  · rintro ⟨n, hn⟩
    rw [hconst n] at hn
    norm_num at hn

/-! ## CSV serialization (C2) -/

/-- The incremental `addRows` walk computes exactly the rendered
flattening: one row per flattened field, in depth-first member order. -/
theorem addRows_eq_flatten : ∀ (ms : JMembers) (pre : String),
    addRows ms pre = (flattenFields ms pre).map (fun pv => csvRow pv.1 pv.2)
  | .nil, _ => rfl
  | .cons key (.obj ms') ms, pre => by
    simp only [addRows, flattenFields, List.map_append,
      addRows_eq_flatten ms' (fieldPath pre key), addRows_eq_flatten ms pre]
  | .cons key (.str s) ms, pre => by
    simp only [addRows, flattenFields, List.map_cons, addRows_eq_flatten ms pre]
  | .cons key (.num n) ms, pre => by
    simp only [addRows, flattenFields, List.map_cons, addRows_eq_flatten ms pre]
  | .cons key (.bool b) ms, pre => by
    simp only [addRows, flattenFields, List.map_cons, addRows_eq_flatten ms pre]
  | .cons key (.arr es) ms, pre => by
    simp only [addRows, flattenFields, List.map_cons, addRows_eq_flatten ms pre]
termination_by ms _ => sizeOf ms

/-- C2 amended: the CSV output is the header `Field,Value` followed by one
line per flattened field in depth-first member order, lines joined by
`'\n'`, sequences rendered as their stringified elements joined with
`'; '`, both cells wrapped in double quotes — but only the value cell has
its double quotes escaped by doubling; the path cell is emitted verbatim.
On the claim's example record the output is exactly the three stated
lines. -/
theorem convertToCSV_rows (data : ExportRecord) :
    convertToCSV data =
      String.intercalate "\n" ("Field,Value" ::
        (flattenFields data "").map
          (fun pv => "\"" ++ pv.1 ++ "\",\"" ++ escQuotes (cellString pv.2) ++ "\"")) ∧
    convertToCSV (.cons "a" (.obj (.cons "b" (.num 1)
        (.cons "c" (.arr (.cons (.num 1) (.cons (.num 2) .nil))) .nil))) .nil) =
      "Field,Value\n\"a.b\",\"1\"\n\"a.c\",\"1; 2\"" := by
  constructor
  · rw [convertToCSV, addRows_eq_flatten]
    rfl
  · decide

/-- C2 counterexample: the claim's "every data field (both path and value)
is escaped" fails on the source — a key containing a double quote reaches
the path cell unescaped, so the output differs from the claim's rendering
on the record with the single member `"a"" : 1`. -/
theorem convertToCSV_key_quote_unescaped :
    convertToCSV (.cons "a\"" (.num 1) .nil) = "Field,Value\n\"a\"\",\"1\"" ∧
    csvPerClaim (.cons "a\"" (.num 1) .nil) = "Field,Value\n\"a\"\"\",\"1\"" ∧
    convertToCSV (.cons "a\"" (.num 1) .nil) ≠ csvPerClaim (.cons "a\"" (.num 1) .nil) :=
  ⟨by decide, by decide, by decide⟩

/-! ## JSON round-trip (C3): lexical lemmas -/

/-- Whitespace prefixes vanish under `skipWs`. -/
theorem skipWs_drop_ws_run : ∀ (l : List Char), (∀ c ∈ l, isWsChar c = true) →
    ∀ x : List Char, skipWs (l ++ x) = skipWs x := by
  intro l hl
  induction l with
  | nil => intro x; rfl
  | cons c cs ih =>
    intro x
    have hc : isWsChar c = true := hl c (by simp)
    simp only [List.cons_append, skipWs, if_pos hc]
    exact ih (fun c hc => hl c (by simp [hc])) x

/-- `skipWs` keeps a non-whitespace head. -/
theorem skipWs_not_ws {c : Char} (h : isWsChar c = false) (x : List Char) :
    skipWs (c :: x) = c :: x := by
  simp [skipWs, h]

/-- Indentation is whitespace. -/
theorem indentChars_ws (d : Nat) : ∀ c ∈ indentChars d, isWsChar c = true := by
  intro c hc
  rw [indentChars, List.mem_replicate] at hc
  rw [hc.2]
  decide

/-- A digit character is not whitespace, not a sign, not a structural
token, and does not begin a keyword. -/
theorem digit_char_facts {c : Char} (h : c.isDigit = true) :
    isWsChar c = false ∧ c ≠ '-' ∧ c ≠ 't' ∧ c ≠ 'f' ∧ c ≠ '"' ∧ c ≠ '\x7b' ∧
      c ≠ '[' ∧ c ≠ '\x7d' ∧ c ≠ ']' ∧ c ≠ ',' := by
  rw [Char.isDigit] at h
  simp only [decide_eq_true_eq, Bool.and_eq_true, decide_eq_true_eq] at h
  obtain ⟨h0, h9⟩ := h
  refine ⟨?_, ?_⟩
  · rw [isWsChar]
    simp only [Bool.or_eq_false_iff, decide_eq_false_iff_not]
    refine ⟨⟨⟨?_, ?_⟩, ?_⟩, ?_⟩ <;> (intro hc; subst hc; revert h0 h9; decide)
  · refine ⟨?_, ?_, ?_, ?_, ?_, ?_, ?_, ?_, ?_⟩ <;>
      (intro hc; subst hc; revert h0 h9; decide)

/-- Whitespace is never a digit. -/
theorem ws_not_digit {c : Char} (h : isWsChar c = true) : c.isDigit = false := by
  rw [isWsChar] at h
  simp only [Bool.or_eq_true, decide_eq_true_eq] at h
  rcases h with ((h | h) | h) | h <;> subst h <;> decide

/-! ### Decimal digits -/

/-- The digit character of `k < 10` is a digit and carries exactly `k`. -/
theorem decDigit_spec (k : Nat) (h : k < 10) :
    (decDigit k).isDigit = true ∧ (decDigit k).toNat - '0'.toNat = k ∧ decDigit k ≠ '-' := by
  interval_cases k <;> exact ⟨by decide, by decide, by decide⟩

/-- The digit recursion ignores its fuel as long as the fuel is enough. -/
theorem natCharsAux_fuel : ∀ (f1 f2 n : Nat), n < f1 → n < f2 →
    natCharsAux f1 n = natCharsAux f2 n := by
  intro f1
  induction f1 with
  | zero => omega
  | succ f1 ih =>
    intro f2 n h1 h2
    cases f2 with
    | zero => omega
    | succ f2 =>
      by_cases hn : n < 10
      · simp [natCharsAux, hn]
      · have hd : n / 10 < f1 := by omega
        have hd2 : n / 10 < f2 := by omega
        simp only [natCharsAux, if_neg hn, ih f2 (n / 10) hd hd2]

/-- One unfolding of `natChars` in least-significant-last form. -/
theorem natChars_unfold (n : Nat) :
    natChars n = if n < 10 then [decDigit n]
      else natChars (n / 10) ++ [decDigit (n % 10)] := by
  by_cases hn : n < 10
  · simp [natChars, natCharsAux, hn]
  · have : n / 10 < n := by omega
    simp only [natChars, natCharsAux, if_neg hn,
      natCharsAux_fuel n (n / 10 + 1) (n / 10) (by omega) (by omega)]

/-- Every character of a rendered natural is a digit. -/
theorem natChars_digits (n : Nat) : ∀ c ∈ natChars n, c.isDigit = true := by
  induction n using Nat.strong_induction_on with
  | _ n ih =>
    rw [natChars_unfold]
    by_cases hn : n < 10
    · simp only [if_pos hn, List.mem_singleton]
      rintro c rfl
      exact (decDigit_spec n hn).1
    · simp only [if_neg hn, List.mem_append, List.mem_singleton]
      rintro c (hc | rfl)
      · exact ih (n / 10) (by omega) c hc
      · exact (decDigit_spec (n % 10) (by omega)).1

/-- A rendered natural starts with a digit. -/
theorem natChars_cons (n : Nat) :
    ∃ c t, natChars n = c :: t ∧ c.isDigit = true := by
  rw [natChars_unfold]
  by_cases hn : n < 10
  · exact ⟨decDigit n, [], by simp [hn], (decDigit_spec n hn).1⟩
  · obtain ⟨c, t, hct, hc⟩ : ∃ c t, natChars (n / 10) = c :: t ∧ c.isDigit = true := by
      have := natChars_digits (n / 10)
      cases h : natChars (n / 10) with
      | nil =>
        exfalso
        have h10 : n / 10 < 10 ∨ ¬ n / 10 < 10 := em _
        rw [natChars_unfold] at h
        rcases h10 with h10 | h10 <;> simp [h10] at h
      | cons c t => exact ⟨c, t, rfl, this c (by rw [h]; simp)⟩
    exact ⟨c, t ++ [decDigit (n % 10)], by simp [hn, hct], hc⟩

/-- Reading the rendered digits back recovers the natural. -/
theorem digitsVal_natChars (n : Nat) : digitsVal (natChars n) = n := by
  induction n using Nat.strong_induction_on with
  | _ n ih =>
    rw [natChars_unfold]
    by_cases hn : n < 10
    · simp only [if_pos hn, digitsVal, List.foldl_cons, List.foldl_nil]
      have := (decDigit_spec n hn).2.1
      omega
    · simp only [if_neg hn, digitsVal, List.foldl_append, List.foldl_cons, List.foldl_nil]
      have hv := ih (n / 10) (by omega)
      rw [digitsVal] at hv
      rw [hv]
      have := (decDigit_spec (n % 10) (by omega)).2.1
      omega

/-! ### Integer parsing inverts integer rendering -/

/-- `spanDigits` takes nothing from a delimited remainder. -/
theorem spanDigits_stop {rest : List Char} (h : numDelim rest = true) :
    spanDigits rest = ([], rest) := by
  cases rest with
  | nil => rfl
  | cons c t =>
    rw [numDelim, Bool.not_eq_true'] at h
    simp [spanDigits, h]

/-- `spanDigits` consumes exactly a leading digit run. -/
theorem spanDigits_run : ∀ (ds : List Char), (∀ c ∈ ds, c.isDigit = true) →
    ∀ rest : List Char, spanDigits rest = ([], rest) →
    spanDigits (ds ++ rest) = (ds, rest) := by
  intro ds hds
  induction ds with
  | nil => intro rest h; simpa using h
  | cons c t ih =>
    intro rest h
    have hc : c.isDigit = true := hds c (by simp)
    have ht := ih (fun x hx => hds x (by simp [hx])) rest h
    simp [spanDigits, hc, ht]

/-- Parsing the rendered integer recovers it and stops exactly at a
delimited remainder. -/
theorem parseIntChars_intChars (i : Int) (rest : List Char) (hr : numDelim rest = true) :
    parseIntChars (intChars i ++ rest) = some (i, rest) := by
  by_cases hneg : i < 0
  · have harg : intChars i ++ rest = '-' :: (natChars i.natAbs ++ rest) := by
      simp [intChars, hneg]
    rw [harg]
    have hspan := spanDigits_run (natChars i.natAbs) (natChars_digits _) rest
      (spanDigits_stop hr)
    obtain ⟨c, t, hct, _⟩ := natChars_cons i.natAbs
    simp only [parseIntChars, hspan]
    rw [if_neg (by simp [hct])]
    have : digitsVal (natChars i.natAbs) = i.natAbs := digitsVal_natChars _
    rw [this]
    have : -(i.natAbs : Int) = i := by omega
    rw [this]
  · obtain ⟨c, t, hct, hc⟩ := natChars_cons i.natAbs
    have hcm : c ≠ '-' := (digit_char_facts hc).2.1
    have harg : intChars i ++ rest = c :: (t ++ rest) := by
      simp [intChars, hneg, hct]
    have hspan : spanDigits (c :: (t ++ rest)) = (c :: t, rest) := by
      have := spanDigits_run (natChars i.natAbs) (natChars_digits _) rest
        (spanDigits_stop hr)
      rw [hct] at this
      simpa using this
    have hv : digitsVal (c :: t) = i.natAbs := by
      have := digitsVal_natChars i.natAbs
      rwa [hct] at this
    rw [harg, parseIntChars]
    split
    · rename_i heq
      exfalso
      rw [hspan] at heq
      simp at heq
    · simp only [hspan]
      rw [hv]
      have : (i.natAbs : Int) = i := by omega
      rw [this]
    · intro rest1 h
      have hch : c = '-' := by
        have := congrArg List.head? h
        simpa using this
      exact hcm hch

/-! ### String parsing inverts string escaping -/

/-- Reading back a rendered hex digit recovers its value. -/
theorem hexVal_hexDigitChar (n : Nat) (h : n < 16) :
    hexVal (hexDigitChar n) = some n := by
  interval_cases n <;> decide

/-- Parsing one escaped character pushes exactly that character. -/
theorem parseStrBody_escape (c : Char) (acc rest : List Char) :
    parseStrBody acc (escapeChar c ++ rest) = parseStrBody (c :: acc) rest := by
  by_cases h1 : c = '"'
  · subst h1; rfl
  by_cases h2 : c = '\\'
  · subst h2; rfl
  by_cases h3 : c = '\x08'
  · subst h3; rfl
  by_cases h4 : c = '\t'
  · subst h4; rfl
  by_cases h5 : c = '\n'
  · subst h5; rfl
  by_cases h6 : c = '\x0c'
  · subst h6; rfl
  by_cases h7 : c = '\x0d'
  · subst h7; rfl
  by_cases h8 : c.toNat < 32
  · have harg : escapeChar c ++ rest =
        '\\' :: 'u' :: '0' :: '0' ::
          hexDigitChar (c.toNat / 16) :: hexDigitChar (c.toNat % 16) :: rest := by
      simp [escapeChar, h1, h2, h3, h4, h5, h6, h7, h8]
    rw [harg, parseStrBody]
    have hh1 := hexVal_hexDigitChar (c.toNat / 16) (by omega)
    have hh2 := hexVal_hexDigitChar (c.toNat % 16) (by omega)
    have hz : hexVal '0' = some 0 := by decide
    simp only [hz, hh1, hh2]
    rw [show ((0 * 16 + 0) * 16 + c.toNat / 16) * 16 + c.toNat % 16 = c.toNat by omega]
    rw [Char.ofNat_toNat]
  · have harg : escapeChar c ++ rest = c :: rest := by
      simp [escapeChar, h1, h2, h3, h4, h5, h6, h7, h8]
    rw [harg, parseStrBody.eq_def]
    split
    · rename_i heq
      injection heq with hh _
      exact absurd hh h1
    · rename_i heq
      injection heq with hh _
      exact absurd hh h2
    · rename_i heq
      injection heq with hh _
      exact absurd hh h2
    · rename_i c' rest' heq
      injection heq with hc hrest
      rw [if_neg (by rw [← hc]; omega)]
      rw [← hc, ← hrest]
    · rename_i heq
      exact absurd heq (by simp)

/-- Parsing an escaped body stops exactly at the closing quote and
recovers the body, whatever has been accumulated so far. -/
theorem parseStrBody_escapeList : ∀ (cs acc rest : List Char),
    parseStrBody acc (escapeList cs ++ '"' :: rest) =
      some (String.mk (acc.reverse ++ cs), rest) := by
  intro cs
  induction cs with
  | nil =>
    intro acc rest
    simp [escapeList, parseStrBody]
  | cons c cs ih =>
    intro acc rest
    rw [escapeList, List.append_assoc, parseStrBody_escape, ih]
    simp

/-- The string-literal round-trip after the opening quote. -/
theorem parse_quoteJSON (s : String) (rest : List Char) :
    parseStrBody [] (escapeList s.toList ++ '"' :: rest) = some (s, rest) := by
  rw [parseStrBody_escapeList]
  rfl

/-! ### Structural helpers for the round-trip -/

/-- Skipping a whitespace run then a non-whitespace head. -/
theorem skipWs_ws_then (wsl : List Char) (hws : ∀ c ∈ wsl, isWsChar c = true)
    {c : Char} (hc : isWsChar c = false) (rest : List Char) :
    skipWs (wsl ++ c :: rest) = c :: rest := by
  rw [skipWs_drop_ws_run wsl hws, skipWs_not_ws hc]

/-- A whitespace run followed by a non-digit cannot extend a number. -/
theorem numDelim_ws_append (wsl : List Char) (hws : ∀ c ∈ wsl, isWsChar c = true)
    {c : Char} (hc : c.isDigit = false) (rest : List Char) :
    numDelim (wsl ++ c :: rest) = true := by
  cases wsl with
  | nil => simp [numDelim, hc]
  | cons w t =>
    have := ws_not_digit (hws w (by simp))
    simp [numDelim, this]

/-- `parseVal` ignores leading whitespace. -/
theorem parseVal_ws_absorb (l : List Char) (hl : ∀ c ∈ l, isWsChar c = true)
    (fuel : Nat) (x : List Char) :
    parseVal fuel (l ++ x) = parseVal fuel x := by
  cases fuel with
  | zero => rfl
  | succ f =>
    simp only [parseVal]
    rw [skipWs_drop_ws_run l hl]

/-- `parseMembers` ignores leading whitespace. -/
theorem parseMembers_ws_absorb (l : List Char) (hl : ∀ c ∈ l, isWsChar c = true)
    (fuel : Nat) (x : List Char) :
    parseMembers fuel (l ++ x) = parseMembers fuel x := by
  cases fuel with
  | zero => rfl
  | succ f =>
    simp only [parseMembers]
    rw [skipWs_drop_ws_run l hl]

/-- Every rendered value begins with a character fit to start a value:
non-whitespace, closing nothing. -/
theorem emitVal_head (d : Nat) (v : JVal) :
    ∃ c t, emitVal d v = c :: t ∧ goodHead c = true := by
  cases v with
  | str s => exact ⟨'"', _, rfl, by decide⟩
  | num n =>
    by_cases hneg : n < 0
    · refine ⟨'-', natChars n.natAbs, ?_, by decide⟩
      simp [emitVal, intChars, hneg]
    · obtain ⟨c, t, hct, hc⟩ := natChars_cons n.natAbs
      obtain ⟨hws, hfacts⟩ := digit_char_facts hc
      refine ⟨c, t, by simp [emitVal, intChars, hneg, hct], ?_⟩
      have h1 := hfacts.2.2.2.2.2.2.1
      have h2 := hfacts.2.2.2.2.2.2.2.1
      simp [goodHead, hws, h1, h2]
  | bool b =>
    cases b
    · exact ⟨'f', _, rfl, by decide⟩
    · exact ⟨'t', _, rfl, by decide⟩
  | obj ms =>
    cases ms
    · exact ⟨'\x7b', _, rfl, by decide⟩
    · exact ⟨'\x7b', _, rfl, by decide⟩
  | arr es =>
    cases es
    · exact ⟨'[', _, rfl, by decide⟩
    · exact ⟨'[', _, rfl, by decide⟩

/-- Unpacking `goodHead`. -/
theorem goodHead_spec {c : Char} (h : goodHead c = true) :
    isWsChar c = false ∧ c ≠ ']' ∧ c ≠ '\x7d' := by
  rw [goodHead] at h
  simp only [Bool.and_eq_true, Bool.not_eq_true', bne_iff_ne] at h
  exact ⟨h.1.1, h.1.2, h.2⟩

/-- A rendered value is nonempty. -/
theorem emitVal_length_pos (d : Nat) (v : JVal) : 0 < (emitVal d v).length := by
  obtain ⟨c, t, hct, _⟩ := emitVal_head d v
  rw [hct]
  simp

/-- The parser's fall-through branch: a head that is no keyword, quote,
brace or bracket parses as a number or fails. -/
theorem parseVal_step_other (f : Nat) (c : Char) (t : List Char)
    (hws : isWsChar c = false) (h1 : c ≠ 't') (h2 : c ≠ 'f') (h3 : c ≠ '"')
    (h4 : c ≠ '\x7b') (h5 : c ≠ '[') :
    parseVal (f + 1) (c :: t) =
      (if c = '-' || c.isDigit then
        match parseIntChars (c :: t) with
        | some (n, r') => some (.num n, r')
        | none => none
      else none) := by
  simp only [parseVal]
  rw [skipWs_not_ws hws]
  simp [h1, h2, h3, h4, h5]

/-- `skipWs` drops one whitespace character. -/
theorem skipWs_cons_ws {c : Char} (hc : isWsChar c = true) (x : List Char) :
    skipWs (c :: x) = skipWs x := by
  simp [skipWs, hc]

/-- `parseVal` ignores one leading whitespace character. -/
theorem parseVal_cons_ws (fuel : Nat) {c : Char} (hc : isWsChar c = true) (x : List Char) :
    parseVal fuel (c :: x) = parseVal fuel x := by
  have h := parseVal_ws_absorb [c]
    (by intro a ha; rw [List.mem_singleton] at ha; rw [ha]; exact hc) fuel x
  simpa using h

/-- `parseMembers` ignores one leading whitespace character. -/
theorem parseMembers_cons_ws (fuel : Nat) {c : Char} (hc : isWsChar c = true)
    (x : List Char) : parseMembers fuel (c :: x) = parseMembers fuel x := by
  have h := parseMembers_ws_absorb [c]
    (by intro a ha; rw [List.mem_singleton] at ha; rw [ha]; exact hc) fuel x
  simpa using h

/-- One parser step on an opening quote (definitional). -/
theorem parseVal_step_quote (f : Nat) (x : List Char) :
    parseVal (f + 1) ('"' :: x) =
      (match parseStrBody [] x with
       | some (s, r') => some (.str s, r')
       | none => none) := rfl

/-- One parser step on the keyword `true` (definitional). -/
theorem parseVal_step_true (f : Nat) (x : List Char) :
    parseVal (f + 1) ('t' :: 'r' :: 'u' :: 'e' :: x) = some (.bool true, x) := rfl

/-- One parser step on the keyword `false` (definitional). -/
theorem parseVal_step_false (f : Nat) (x : List Char) :
    parseVal (f + 1) ('f' :: 'a' :: 'l' :: 's' :: 'e' :: x) = some (.bool false, x) := rfl

/-- One parser step on an opening brace (definitional). -/
theorem parseVal_step_obj (f : Nat) (x : List Char) :
    parseVal (f + 1) ('\x7b' :: x) =
      (match skipWs x with
       | '\x7d' :: r' => some (.obj .nil, r')
       | _ => match parseMembers f x with
              | some (ms, r') => some (.obj ms, r')
              | none => none) := rfl

/-- One parser step on an opening bracket (definitional). -/
theorem parseVal_step_arr (f : Nat) (x : List Char) :
    parseVal (f + 1) ('[' :: x) =
      (match skipWs x with
       | ']' :: r' => some (.arr .nil, r')
       | _ => match parseElems f x with
              | some (es, r') => some (.arr es, r')
              | none => none) := rfl

/-- One member-list parser step on the key's opening quote (definitional). -/
theorem parseMembers_step (f : Nat) (x : List Char) :
    parseMembers (f + 1) ('"' :: x) =
      (match parseStrBody [] x with
       | some (key, r1) =>
         (match skipWs r1 with
          | ':' :: r2 =>
            (match parseVal f r2 with
             | some (v, r3) =>
               (match skipWs r3 with
                | ',' :: r4 =>
                  (match parseMembers f r4 with
                   | some (ms, r5) => some (.cons key v ms, r5)
                   | none => none)
                | '\x7d' :: r4 => some (.cons key v .nil, r4)
                | _ => none)
             | none => none)
          | _ => none)
       | none => none) := rfl

/-- One element-list parser step (definitional). -/
theorem parseElems_step (f : Nat) (cs : List Char) :
    parseElems (f + 1) cs =
      (match parseVal f cs with
       | some (v, r) =>
         (match skipWs r with
          | ',' :: r' =>
            (match parseElems f r' with
             | some (es, r'') => some (.cons v es, r'')
             | none => none)
          | ']' :: r' => some (.cons v .nil, r')
          | _ => none)
       | none => none) := rfl

/-- `parseElems` ignores one leading whitespace character. -/
theorem parseElems_cons_ws (fuel : Nat) {c : Char} (hc : isWsChar c = true)
    (x : List Char) : parseElems fuel (c :: x) = parseElems fuel x := by
  cases fuel with
  | zero => rfl
  | succ f =>
    rw [parseElems_step, parseElems_step, parseVal_cons_ws f hc]

/-- A non-digit head cannot extend a number. -/
theorem numDelim_cons {c : Char} (h : c.isDigit = false) (t : List Char) :
    numDelim (c :: t) = true := by
  simp [numDelim, h]

/-- A rendered nonempty member list begins, after whitespace, with the
key's opening quote. -/
theorem skipWs_emitMembers (d : Nat) (k : String) (v : JVal) (tl : JMembers)
    (X : List Char) :
    ∃ S, skipWs (emitMembers d (.cons k v tl) ++ X) = '"' :: S := by
  cases tl with
  | nil =>
    have harg : emitMembers d (.cons k v .nil) ++ X =
        indentChars d ++ ('"' :: (escapeList k.toList ++ '"' ::
          (':' :: ' ' :: (emitVal d v ++ X)))) := by
      simp [emitMembers, quoteJSON]
    exact ⟨_, by
      rw [harg, skipWs_ws_then (indentChars d) (indentChars_ws d) (by decide)]⟩
  | cons k2 v2 tl2 =>
    have harg : emitMembers d (.cons k v (.cons k2 v2 tl2)) ++ X =
        indentChars d ++ ('"' :: (escapeList k.toList ++ '"' ::
          (':' :: ' ' :: (emitVal d v ++ (',' :: ('\n' ::
            (emitMembers d (.cons k2 v2 tl2) ++ X))))))) := by
      simp [emitMembers, quoteJSON]
    exact ⟨_, by
      rw [harg, skipWs_ws_then (indentChars d) (indentChars_ws d) (by decide)]⟩

/-- A rendered nonempty element list begins, after whitespace, with a
character that closes nothing. -/
theorem skipWs_emitElems (d : Nat) (e : JVal) (tl : JElems) (X : List Char) :
    ∃ c S, skipWs (emitElems d (.cons e tl) ++ X) = c :: S ∧ c ≠ ']' ∧ c ≠ '\x7d' := by
  obtain ⟨c0, t0, hc0, hgood⟩ := emitVal_head d e
  obtain ⟨hws0, hrb, hrc⟩ := goodHead_spec hgood
  cases tl with
  | nil =>
    have harg : emitElems d (.cons e .nil) ++ X =
        indentChars d ++ (c0 :: (t0 ++ X)) := by
      simp [emitElems, hc0]
    exact ⟨c0, _, by
      rw [harg, skipWs_ws_then (indentChars d) (indentChars_ws d) hws0], hrb, hrc⟩
  | cons e2 tl2 =>
    have harg : emitElems d (.cons e (.cons e2 tl2)) ++ X =
        indentChars d ++ (c0 :: (t0 ++ (',' :: ('\n' ::
          (emitElems d (.cons e2 tl2) ++ X))))) := by
      simp [emitElems, hc0]
    exact ⟨c0, _, by
      rw [harg, skipWs_ws_then (indentChars d) (indentChars_ws d) hws0], hrb, hrc⟩

/-! ### The round-trip of the serializer's grammar -/

mutual
/-- Parsing a rendered value consumes exactly it, for any indentation
level, enough fuel, and a remainder that cannot extend a number. -/
theorem rt_val : ∀ (v : JVal) (d fuel : Nat) (rest : List Char),
    (emitVal d v).length < fuel → numDelim rest = true →
    parseVal fuel (emitVal d v ++ rest) = some (v, rest)
  | .str s, d, fuel, rest, hlen, _ => by
    cases fuel with
    | zero => exact absurd hlen (by omega)
    | succ f =>
      have harg : emitVal d (.str s) ++ rest =
          '"' :: (escapeList s.toList ++ '"' :: rest) := by
        simp [emitVal, quoteJSON]
      rw [harg, parseVal_step_quote, parse_quoteJSON]
  | .num n, d, fuel, rest, hlen, hnd => by
    cases fuel with
    | zero => exact absurd hlen (by omega)
    | succ f =>
      have hpi := parseIntChars_intChars n rest hnd
      by_cases hneg : n < 0
      · have harg : emitVal d (.num n) ++ rest = '-' :: (natChars n.natAbs ++ rest) := by
          simp [emitVal, intChars, hneg]
        have hpi' : parseIntChars ('-' :: (natChars n.natAbs ++ rest)) = some (n, rest) := by
          rw [← List.cons_append, show '-' :: natChars n.natAbs = intChars n by
            simp [intChars, hneg]]
          exact hpi
        rw [harg, parseVal_step_other f '-' _ (by decide) (by decide) (by decide)
          (by decide) (by decide) (by decide)]
        simp [hpi']
      · obtain ⟨c, t, hct, hc⟩ := natChars_cons n.natAbs
        obtain ⟨hcws, hcm, hct', hcf, hcq, hcb, hck, _, _, _⟩ := digit_char_facts hc
        have harg : emitVal d (.num n) ++ rest = c :: (t ++ rest) := by
          simp [emitVal, intChars, hneg, hct]
        have hpi' : parseIntChars (c :: (t ++ rest)) = some (n, rest) := by
          rw [← List.cons_append, ← hct, show natChars n.natAbs = intChars n by
            simp [intChars, hneg]]
          exact hpi
        rw [harg, parseVal_step_other f c _ hcws hct' hcf hcq hcb hck]
        simp [hpi', hc]
  | .bool true, d, fuel, rest, hlen, _ => by
    cases fuel with
    | zero => exact absurd hlen (by omega)
    | succ f =>
      exact parseVal_step_true f rest
  | .bool false, d, fuel, rest, hlen, _ => by
    cases fuel with
    | zero => exact absurd hlen (by omega)
    | succ f =>
      exact parseVal_step_false f rest
  | .obj .nil, d, fuel, rest, hlen, _ => by
    cases fuel with
    | zero => exact absurd hlen (by omega)
    | succ f =>
      have harg : emitVal d (.obj .nil) ++ rest = '\x7b' :: '\x7d' :: rest := rfl
      rw [harg, parseVal_step_obj, skipWs_not_ws (by decide)]
      rfl
  | .obj (.cons k v tl), d, fuel, rest, hlen, _ => by
    cases fuel with
    | zero => exact absurd hlen (by omega)
    | succ f =>
      have hwsl : ∀ c ∈ '\n' :: indentChars d, isWsChar c = true := by
        intro c hc
        rcases List.mem_cons.mp hc with rfl | hc
        · decide
        · exact indentChars_ws d c hc
      have harg : emitVal d (.obj (.cons k v tl)) ++ rest =
          '\x7b' :: ('\n' :: (emitMembers (d + 1) (.cons k v tl) ++
            (('\n' :: indentChars d) ++ '\x7d' :: rest))) := by
        simp [emitVal]
      have hlen' : (emitMembers (d + 1) (.cons k v tl)).length + 1 < f := by
        simp only [emitVal] at hlen
        simp only [List.length_cons, List.length_append, indentChars,
          List.length_replicate] at hlen
        omega
      have hmem := rt_members k v tl (d + 1) f ('\n' :: indentChars d) rest hwsl hlen'
      obtain ⟨S, hS⟩ := skipWs_emitMembers (d + 1) k v tl
        (('\n' :: indentChars d) ++ '\x7d' :: rest)
      rw [harg, parseVal_step_obj, skipWs_cons_ws (by decide), hS]
      split
      · rename_i heq
        injection heq with hh _
        exact absurd hh (by decide)
      · rw [parseMembers_cons_ws f (by decide), hmem]
  | .arr .nil, d, fuel, rest, hlen, _ => by
    cases fuel with
    | zero => exact absurd hlen (by omega)
    | succ f =>
      have harg : emitVal d (.arr .nil) ++ rest = '[' :: ']' :: rest := rfl
      rw [harg, parseVal_step_arr, skipWs_not_ws (by decide)]
      rfl
  | .arr (.cons e tl), d, fuel, rest, hlen, _ => by
    cases fuel with
    | zero => exact absurd hlen (by omega)
    | succ f =>
      have hwsl : ∀ c ∈ '\n' :: indentChars d, isWsChar c = true := by
        intro c hc
        rcases List.mem_cons.mp hc with rfl | hc
        · decide
        · exact indentChars_ws d c hc
      have harg : emitVal d (.arr (.cons e tl)) ++ rest =
          '[' :: ('\n' :: (emitElems (d + 1) (.cons e tl) ++
            (('\n' :: indentChars d) ++ ']' :: rest))) := by
        simp [emitVal]
      have hlen' : (emitElems (d + 1) (.cons e tl)).length + 1 < f := by
        simp only [emitVal] at hlen
        simp only [List.length_cons, List.length_append, indentChars,
          List.length_replicate] at hlen
        omega
      have helems := rt_elems e tl (d + 1) f ('\n' :: indentChars d) rest hwsl hlen'
      obtain ⟨c0, S, hS, hrb, _⟩ := skipWs_emitElems (d + 1) e tl
        (('\n' :: indentChars d) ++ ']' :: rest)
      rw [harg, parseVal_step_arr, skipWs_cons_ws (by decide), hS]
      split
      · rename_i heq
        injection heq with hh _
        exact absurd hh hrb
      · rw [parseElems_cons_ws f (by decide), helems]
termination_by v _ _ _ _ _ => sizeOf v
theorem rt_members : ∀ (k : String) (v : JVal) (tl : JMembers) (d fuel : Nat)
    (wsl rest : List Char), (∀ c ∈ wsl, isWsChar c = true) →
    (emitMembers d (.cons k v tl)).length + 1 < fuel →
    parseMembers fuel (emitMembers d (.cons k v tl) ++ (wsl ++ '\x7d' :: rest)) =
      some (.cons k v tl, rest)
  | k, v, .nil, d, fuel, wsl, rest, hws, hlen => by
    cases fuel with
    | zero => exact absurd hlen (by omega)
    | succ f =>
      have hlenv : (emitVal d v).length < f := by
        simp only [emitMembers, quoteJSON, List.length_append, List.length_cons,
          indentChars, List.length_replicate] at hlen
        omega
      have hnd : numDelim (wsl ++ '\x7d' :: rest) = true :=
        numDelim_ws_append wsl hws (by decide) rest
      have hv : parseVal f (emitVal d v ++ (wsl ++ '\x7d' :: rest)) =
          some (v, wsl ++ '\x7d' :: rest) := rt_val v d f _ hlenv hnd
      have harg : emitMembers d (.cons k v .nil) ++ (wsl ++ '\x7d' :: rest) =
          indentChars d ++ ('"' :: (escapeList k.toList ++ '"' ::
            (':' :: ' ' :: (emitVal d v ++ (wsl ++ '\x7d' :: rest))))) := by
        simp [emitMembers, quoteJSON]
      rw [harg, parseMembers_ws_absorb (indentChars d) (indentChars_ws d),
        parseMembers_step, parse_quoteJSON]
      simp only [skipWs_not_ws (show isWsChar ':' = false by decide),
        parseVal_cons_ws f (show isWsChar ' ' = true by decide), hv,
        skipWs_ws_then wsl hws (show isWsChar '\x7d' = false by decide) rest]
  | k, v, .cons k2 v2 tl2, d, fuel, wsl, rest, hws, hlen => by
    cases fuel with
    | zero => exact absurd hlen (by omega)
    | succ f =>
      have hlenv : (emitVal d v).length < f := by
        simp only [emitMembers, quoteJSON, List.length_append, List.length_cons,
          indentChars, List.length_replicate] at hlen
        omega
      have hlentl : (emitMembers d (.cons k2 v2 tl2)).length + 1 < f := by
        simp only [emitMembers, quoteJSON, List.length_append, List.length_cons,
          indentChars, List.length_replicate] at hlen ⊢
        omega
      have hnd : numDelim (',' :: ('\n' :: (emitMembers d (.cons k2 v2 tl2) ++
          (wsl ++ '\x7d' :: rest)))) = true := numDelim_cons (by decide) _
      have hv : parseVal f (emitVal d v ++ (',' :: ('\n' ::
          (emitMembers d (.cons k2 v2 tl2) ++ (wsl ++ '\x7d' :: rest))))) =
          some (v, ',' :: ('\n' :: (emitMembers d (.cons k2 v2 tl2) ++
            (wsl ++ '\x7d' :: rest)))) := rt_val v d f _ hlenv hnd
      have hrec := rt_members k2 v2 tl2 d f wsl rest hws hlentl
      have harg : emitMembers d (.cons k v (.cons k2 v2 tl2)) ++ (wsl ++ '\x7d' :: rest) =
          indentChars d ++ ('"' :: (escapeList k.toList ++ '"' ::
            (':' :: ' ' :: (emitVal d v ++ (',' :: ('\n' ::
              (emitMembers d (.cons k2 v2 tl2) ++ (wsl ++ '\x7d' :: rest)))))))) := by
        simp [emitMembers, quoteJSON]
      rw [harg, parseMembers_ws_absorb (indentChars d) (indentChars_ws d),
        parseMembers_step, parse_quoteJSON]
      simp only [skipWs_not_ws (show isWsChar ':' = false by decide),
        parseVal_cons_ws f (show isWsChar ' ' = true by decide), hv,
        skipWs_not_ws (show isWsChar ',' = false by decide),
        parseMembers_cons_ws f (show isWsChar '\n' = true by decide), hrec]
termination_by _ v tl _ _ _ _ _ _ => 1 + sizeOf v + sizeOf tl
theorem rt_elems : ∀ (e : JVal) (tl : JElems) (d fuel : Nat)
    (wsl rest : List Char), (∀ c ∈ wsl, isWsChar c = true) →
    (emitElems d (.cons e tl)).length + 1 < fuel →
    parseElems fuel (emitElems d (.cons e tl) ++ (wsl ++ ']' :: rest)) =
      some (.cons e tl, rest)
  | e, .nil, d, fuel, wsl, rest, hws, hlen => by
    cases fuel with
    | zero => exact absurd hlen (by omega)
    | succ f =>
      have hlenv : (emitVal d e).length < f := by
        simp only [emitElems, List.length_append, indentChars,
          List.length_replicate] at hlen
        omega
      have hnd : numDelim (wsl ++ ']' :: rest) = true :=
        numDelim_ws_append wsl hws (by decide) rest
      have hv : parseVal f (emitVal d e ++ (wsl ++ ']' :: rest)) =
          some (e, wsl ++ ']' :: rest) := rt_val e d f _ hlenv hnd
      have harg : emitElems d (.cons e .nil) ++ (wsl ++ ']' :: rest) =
          indentChars d ++ (emitVal d e ++ (wsl ++ ']' :: rest)) := by
        simp [emitElems]
      rw [harg, parseElems_step, parseVal_ws_absorb (indentChars d) (indentChars_ws d), hv]
      simp only [skipWs_ws_then wsl hws (show isWsChar ']' = false by decide) rest]
  | e, .cons e2 tl2, d, fuel, wsl, rest, hws, hlen => by
    cases fuel with
    | zero => exact absurd hlen (by omega)
    | succ f =>
      have hlenv : (emitVal d e).length < f := by
        simp only [emitElems, List.length_append, List.length_cons, indentChars,
          List.length_replicate] at hlen
        omega
      have hlentl : (emitElems d (.cons e2 tl2)).length + 1 < f := by
        simp only [emitElems, List.length_append, List.length_cons, indentChars,
          List.length_replicate] at hlen ⊢
        omega
      have hnd : numDelim (',' :: ('\n' :: (emitElems d (.cons e2 tl2) ++
          (wsl ++ ']' :: rest)))) = true := numDelim_cons (by decide) _
      have hv : parseVal f (emitVal d e ++ (',' :: ('\n' ::
          (emitElems d (.cons e2 tl2) ++ (wsl ++ ']' :: rest))))) =
          some (e, ',' :: ('\n' :: (emitElems d (.cons e2 tl2) ++
            (wsl ++ ']' :: rest)))) := rt_val e d f _ hlenv hnd
      have hrec := rt_elems e2 tl2 d f wsl rest hws hlentl
      have harg : emitElems d (.cons e (.cons e2 tl2)) ++ (wsl ++ ']' :: rest) =
          indentChars d ++ (emitVal d e ++ (',' :: ('\n' ::
            (emitElems d (.cons e2 tl2) ++ (wsl ++ ']' :: rest))))) := by
        simp [emitElems]
      rw [harg, parseElems_step, parseVal_ws_absorb (indentChars d) (indentChars_ws d), hv]
      simp only [skipWs_not_ws (show isWsChar ',' = false by decide),
        parseElems_cons_ws f (show isWsChar '\n' = true by decide), hrec]
termination_by e tl _ _ _ _ _ _ => 1 + sizeOf e + sizeOf tl
end

/-- C3: for every `ExportRecord`, parsing the 2-space-indented
`JSON.stringify` serialization yields a value deep-equal to the record —
equality on the nose, since member order is the record's insertion order.
The nested example shows the exact serialized text: two spaces of
indentation per nesting level, keys in insertion order. -/
theorem json_round_trip :
    (∀ data : ExportRecord, jsonParse (jsonStringify data) = some (.obj data)) ∧
    jsonStringify (.cons "a" (.obj (.cons "b" (.num 1) .nil)) .nil) =
      "\x7b\n  \"a\": \x7b\n    \"b\": 1\n  \x7d\n\x7d" := by
  constructor
  · intro data
    have h := rt_val (.obj data) 0 ((emitVal 0 (.obj data)).length + 1) []
      (by omega) rfl
    rw [List.append_nil] at h
    rw [jsonStringify, jsonParse]
    have htl : (String.mk (emitVal 0 (.obj data))).toList = emitVal 0 (.obj data) := rfl
    rw [String.length_mk, htl, h]
    rfl
  · decide

end ResumeParser
